import Mathlib

/-!
Verification of the metric / preprocessing logic of the Stroke-Prediction
repository (two analysis scripts, `stroke_modeling.py` and `stroke_eda.py`).

The embedding below follows the source scripts.  Binary class labels are
modelled as `Bool` (`false` = label 0, `true` = label 1); exact rational
arithmetic (`ℚ`) stands in for IEEE floating point, with `Option ℚ` used where
numpy can produce NaN (`none` = NaN / missing value).
-/

namespace StrokePred

/-- Number of positions where the true label is `a` and the predicted label is
`b`.  These are the entries of `sklearn.metrics.confusion_matrix (y_valid,
y_pred)` (row = true label, column = predicted label). -/
def countPairs (yv yp : List Bool) (a b : Bool) : ℕ :=
  (yv.zip yp).countP (fun p => p.1 == a && p.2 == b)

/-- `confusion_matrix` is called without a `labels=` argument, so sklearn infers
the label set as the sorted distinct values occurring in `y_valid` or `y_pred`.
For data over {0, 1} that is one of `[]`, `[false]`, `[true]`, `[false, true]`. -/
def inferredLabels (yv yp : List Bool) : List Bool :=
  (if false ∈ yv ++ yp then [false] else []) ++ (if true ∈ yv ++ yp then [true] else [])

/-- `conmat.flatten()` (line 190 of stroke_modeling.py): the confusion matrix in
row-major order.  Entry (i, j) counts samples whose true label is the i-th
inferred label and predicted label the j-th. -/
def conmatFlatten (yv yp : List Bool) : List ℕ :=
  ((inferredLabels yv yp).map (fun a =>
    (inferredLabels yv yp).map (fun b => countPairs yv yp a b))).flatten

/-- `numpy.round(x, 4)` rounds half to even.  Integer result of rounding `q` to
the nearest integer, ties to even (`Rat.floor` is used rather than `⌊·⌋` so the
definition evaluates by kernel reduction). -/
def roundHalfEven (q : ℚ) : ℤ :=
  if q - q.floor < 1/2 then q.floor
  else if 1/2 < q - q.floor then q.floor + 1
  else if q.floor % 2 = 0 then q.floor else q.floor + 1

/-- `np.round(q, 4)`: round to 4 decimal places, ties to even. -/
def np_round4 (q : ℚ) : ℚ := (roundHalfEven (q * 10000) : ℚ) / 10000

/-- numpy true division of two nonnegative integer scalars, as a NaN-aware
value: dividing by zero yields NaN (`none`; the numerators in evaluate_model
are 0 whenever the denominators are, so ±inf never arises). -/
def npDivNat (a b : ℕ) : Option ℚ := if b = 0 then none else some ((a : ℚ) / b)

/-- numpy scalar division raises no Python exception: on a zero denominator it
emits a RuntimeWarning and evaluates to NaN.  Wrapped in `Except` to model the
Python exception flow around line 194 (`PPV = TP / (TP+FP)`), where `TP` and
`FP` are numpy int64 scalars obtained from `conmat.flatten()`. -/
def npDivExcept (a b : ℕ) : Except String (Option ℚ) := Except.ok (npDivNat a b)

/-- Lines 193–197 of stroke_modeling.py: the try/except around the PPV
division.  Returns the PPV value together with whether the
`except ZeroDivisionError` branch ran (that branch sets PPV to 0 and prints
the warning naming the model). -/
def computePPV (tp fp : ℕ) : Option ℚ × Bool :=
  match npDivExcept tp (tp + fp) with
  | Except.ok v => (v, false)
  | Except.error _ => (some 0, true)

/-- `sklearn.metrics.f1_score(y_valid, y_pred)` with the default binary
averaging and `pos_label=1`: harmonic mean of precision and recall, each of
which (and the mean itself) falls back to 0 when its denominator is 0. -/
def f1Score (yv yp : List Bool) : ℚ :=
  let tp : ℚ := countPairs yv yp true true
  let fp : ℚ := countPairs yv yp false true
  let fnc : ℚ := countPairs yv yp true false
  let p : ℚ := if tp + fp = 0 then 0 else tp / (tp + fp)
  let r : ℚ := if tp + fnc = 0 then 0 else tp / (tp + fnc)
  if p + r = 0 then 0 else 2 * p * r / (p + r)

/-- `sklearn.metrics.accuracy_score(y_valid, y_pred)`: fraction of positions
where the two label sequences agree. -/
def accuracyScore (yv yp : List Bool) : Option ℚ :=
  if yv.length = 0 then none
  else some (((yv.zip yp).countP (fun p => p.1 == p.2) : ℚ) / yv.length)

/-- The confusion-matrix-based entries of the `metrics` dictionary returned by
`evaluate_model` (the probability-based entries AUROC / average precision /
AUPRC / thresholds depend on `predict_proba` output and are not referenced by
any claim, so they are omitted from the record).  `ppvWarning` records whether
the `except ZeroDivisionError` branch executed. -/
structure Metrics where
  accuracy : Option ℚ
  sensitivity : Option ℚ
  specificity : Option ℚ
  ppv : Option ℚ
  ppvWarning : Bool
  npv : Option ℚ
  f1 : Option ℚ
  f1Manual : Option ℚ
deriving Repr, DecidableEq

/-- `evaluate_model` (lines 140–238 of stroke_modeling.py), restricted to the
data reachable from `(y_valid, y_pred)`.  The unpacking
`TN, FP, FN, TP = conmat.flatten()` (line 190) raises a `ValueError` unless the
flattened matrix has exactly four entries; a raising call is modelled as
`none`.  Each stored metric is `np.round(·, 4)` of the computed value
(lines 216–226), with NaN (`none`) propagating through the rounding. -/
def evaluateMetrics (yv yp : List Bool) : Option Metrics :=
  match conmatFlatten yv yp with
  | [tn, fp, fnc, tp] =>
    let ppvPair := computePPV tp fp
    some {
      accuracy := (accuracyScore yv yp).map np_round4
      sensitivity := (npDivNat tp (tp + fnc)).map np_round4
      specificity := (npDivNat tn (tn + fp)).map np_round4
      ppv := ppvPair.1.map np_round4
      ppvWarning := ppvPair.2
      npv := (npDivNat tn (tn + fnc)).map np_round4
      f1 := some (np_round4 (f1Score yv yp))
      f1Manual := (npDivNat (2 * tp) (2 * tp + fp + fnc)).map np_round4 }
  | _ => none

theorem evaluateMetrics_of_conmat (yv yp : List Bool) (tn fp fnc tp : ℕ)
    (h : conmatFlatten yv yp = [tn, fp, fnc, tp]) :
    evaluateMetrics yv yp = some {
      accuracy := (accuracyScore yv yp).map np_round4
      sensitivity := (npDivNat tp (tp + fnc)).map np_round4
      specificity := (npDivNat tn (tn + fp)).map np_round4
      ppv := (computePPV tp fp).1.map np_round4
      ppvWarning := (computePPV tp fp).2
      npv := (npDivNat tn (tn + fnc)).map np_round4
      f1 := some (np_round4 (f1Score yv yp))
      f1Manual := (npDivNat (2 * tp) (2 * tp + fp + fnc)).map np_round4 } := by
  unfold evaluateMetrics
  rw [h]

theorem rat_floor_eq_floor (q : ℚ) : q.floor = ⌊q⌋ :=
  (Rat.floor_def' q).trans Rat.floor_def.symm

theorem roundHalfEven_nonneg {q : ℚ} (h : 0 ≤ q) : 0 ≤ roundHalfEven q := by
  have hf : (0 : ℤ) ≤ ⌊q⌋ := Int.le_floor.mpr (by exact_mod_cast h)
  unfold roundHalfEven
  rw [rat_floor_eq_floor]
  split_ifs <;> omega

theorem roundHalfEven_le {q : ℚ} {n : ℤ} (h : q ≤ n) : roundHalfEven q ≤ n := by
  have hf : ⌊q⌋ ≤ n := by
    have := Int.floor_le_floor h
    simpa using this
  have hfl : (⌊q⌋ : ℚ) ≤ q := Int.floor_le q
  unfold roundHalfEven
  rw [rat_floor_eq_floor]
  split_ifs with h1 h2 h3
  · exact hf
  · have hlt : (⌊q⌋ : ℚ) < (n : ℚ) := by linarith
    have : ⌊q⌋ < n := by exact_mod_cast hlt
    omega
  · have hlt : (⌊q⌋ : ℚ) < (n : ℚ) := by linarith
    have : ⌊q⌋ < n := by exact_mod_cast hlt
    omega
  · have hlt : (⌊q⌋ : ℚ) < (n : ℚ) := by linarith
    have : ⌊q⌋ < n := by exact_mod_cast hlt
    omega

theorem np_round4_nonneg {q : ℚ} (h : 0 ≤ q) : 0 ≤ np_round4 q := by
  unfold np_round4
  have h0 : (0 : ℤ) ≤ roundHalfEven (q * 10000) :=
    roundHalfEven_nonneg (by positivity)
  have : (0 : ℚ) ≤ (roundHalfEven (q * 10000) : ℚ) := by exact_mod_cast h0
  positivity

theorem np_round4_le_one {q : ℚ} (h : q ≤ 1) : np_round4 q ≤ 1 := by
  unfold np_round4
  have h1 : q * 10000 ≤ ((10000 : ℤ) : ℚ) := by push_cast; linarith
  have h2 := roundHalfEven_le h1
  rw [div_le_one (by norm_num)]
  exact_mod_cast h2

theorem np_round4_ratio_mem_unit (a b : ℕ) (hab : a ≤ b) (hb : b ≠ 0) :
    0 ≤ np_round4 ((a : ℚ) / (b : ℚ)) ∧ np_round4 ((a : ℚ) / (b : ℚ)) ≤ 1 := by
  have hb' : (0 : ℚ) < (b : ℚ) := by exact_mod_cast Nat.pos_of_ne_zero hb
  refine ⟨np_round4_nonneg (div_nonneg (by positivity) hb'.le), ?_⟩
  exact np_round4_le_one ((div_le_one hb').mpr (by exact_mod_cast hab))

theorem conmatFlatten_both (yv yp : List Bool) (h0 : false ∈ yv ++ yp)
    (h1 : true ∈ yv ++ yp) :
    conmatFlatten yv yp = [countPairs yv yp false false, countPairs yv yp false true,
      countPairs yv yp true false, countPairs yv yp true true] := by
  unfold conmatFlatten inferredLabels
  rw [if_pos h0, if_pos h1]
  rfl

theorem conmat_counts (yv yp : List Bool) (tn fp fnc tp : ℕ)
    (h : conmatFlatten yv yp = [tn, fp, fnc, tp]) :
    tn = countPairs yv yp false false ∧ fp = countPairs yv yp false true ∧
      fnc = countPairs yv yp true false ∧ tp = countPairs yv yp true true := by
  by_cases h0 : false ∈ yv ++ yp <;> by_cases h1 : true ∈ yv ++ yp
  · rw [conmatFlatten_both yv yp h0 h1] at h
    obtain ⟨e1, e2, e3, e4⟩ := by simpa using h
    exact ⟨e1.symm, e2.symm, e3.symm, e4.symm⟩
  all_goals unfold conmatFlatten inferredLabels at h
  all_goals simp [h0, h1] at h

theorem countPairs_partition (yv yp : List Bool) (hlen : yv.length = yp.length) :
    countPairs yv yp false false + countPairs yv yp false true +
      countPairs yv yp true false + countPairs yv yp true true = yv.length := by
  unfold countPairs
  have hz : (yv.zip yp).length = yv.length := by
    rw [List.length_zip, hlen, min_self]
  rw [← hz]
  generalize yv.zip yp = l
  induction l with
  | nil => rfl
  | cons a l ih =>
    rcases a with ⟨x, y⟩
    simp only [List.countP_cons]
    cases x <;> cases y <;> simp at ih ⊢ <;> omega

/-- Claim C2: for every call to evaluate_model, with TN, FP, FN, TP the four
row-major entries of the confusion matrix of (y_valid, y_pred), the returned
metrics satisfy sensitivity = TP/(TP+FN), specificity = TN/(TN+FP),
PPV = TP/(TP+FP), NPV = TN/(TN+FN), F1 (manual) = 2TP/(2TP+FP+FN), each up to
the rounding to 4 decimal places applied before returning, whenever the
respective denominator is non-zero. -/
theorem evaluate_model_metric_formulas (yv yp : List Bool) (tn fp fnc tp : ℕ)
    (h : conmatFlatten yv yp = [tn, fp, fnc, tp]) :
    ∃ m, evaluateMetrics yv yp = some m ∧
      (tp + fnc ≠ 0 → m.sensitivity = some (np_round4 ((tp : ℚ) / ((tp : ℚ) + (fnc : ℚ))))) ∧
      (tn + fp ≠ 0 → m.specificity = some (np_round4 ((tn : ℚ) / ((tn : ℚ) + (fp : ℚ))))) ∧
      (tp + fp ≠ 0 → m.ppv = some (np_round4 ((tp : ℚ) / ((tp : ℚ) + (fp : ℚ))))) ∧
      (tn + fnc ≠ 0 → m.npv = some (np_round4 ((tn : ℚ) / ((tn : ℚ) + (fnc : ℚ))))) ∧
      (2 * tp + fp + fnc ≠ 0 →
        m.f1Manual = some (np_round4 ((2 * (tp : ℚ)) / (2 * (tp : ℚ) + (fp : ℚ) + (fnc : ℚ))))) := by
  refine ⟨_, evaluateMetrics_of_conmat yv yp tn fp fnc tp h, ?_, ?_, ?_, ?_, ?_⟩
  · intro hd
    show (npDivNat tp (tp + fnc)).map np_round4 = _
    simp only [npDivNat, if_neg hd, Option.map_some']
    push_cast
    rfl
  · intro hd
    show (npDivNat tn (tn + fp)).map np_round4 = _
    simp only [npDivNat, if_neg hd, Option.map_some']
    push_cast
    rfl
  · intro hd
    show ((computePPV tp fp).1).map np_round4 = _
    simp only [computePPV, npDivExcept, npDivNat, if_neg hd, Option.map_some']
    push_cast
    rfl
  · intro hd
    show (npDivNat tn (tn + fnc)).map np_round4 = _
    simp only [npDivNat, if_neg hd, Option.map_some']
    push_cast
    rfl
  · intro hd
    show (npDivNat (2 * tp) (2 * tp + fp + fnc)).map np_round4 = _
    simp only [npDivNat, if_neg hd, Option.map_some']
    push_cast
    rfl

theorem evaluate_model_metric_formulas_witness :
    conmatFlatten [false, false, true, true] [false, true, false, true] = [1, 1, 1, 1] ∧
    (∃ m, evaluateMetrics [false, false, true, true] [false, true, false, true] = some m ∧
      ((1 : ℕ) + 1 ≠ 0 → m.sensitivity = some (np_round4 ((1 : ℚ) / ((1 : ℚ) + (1 : ℚ))))) ∧
      ((1 : ℕ) + 1 ≠ 0 → m.specificity = some (np_round4 ((1 : ℚ) / ((1 : ℚ) + (1 : ℚ))))) ∧
      ((1 : ℕ) + 1 ≠ 0 → m.ppv = some (np_round4 ((1 : ℚ) / ((1 : ℚ) + (1 : ℚ))))) ∧
      ((1 : ℕ) + 1 ≠ 0 → m.npv = some (np_round4 ((1 : ℚ) / ((1 : ℚ) + (1 : ℚ))))) ∧
      (2 * (1 : ℕ) + 1 + 1 ≠ 0 →
        m.f1Manual = some (np_round4 ((2 * (1 : ℚ)) / (2 * (1 : ℚ) + (1 : ℚ) + (1 : ℚ)))))) :=
  ⟨by decide, evaluate_model_metric_formulas _ _ 1 1 1 1 (by decide)⟩

/-- Claim C4 counterexample: with y_valid = [0] and y_pred = [0] (equal-length
sequences over labels {0, 1}), sklearn infers the single label 0, the flattened
confusion matrix is the one-entry list [1], there exist no four counts, and the
unpacking in evaluate_model fails (modelled as `none`).  The claim as stated is
therefore false at this input. -/
theorem conmat_counts_sum_counterexample :
    conmatFlatten [false] [false] = [1] ∧
      (¬ ∃ tn fp fnc tp : ℕ, conmatFlatten [false] [false] = [tn, fp, fnc, tp]) ∧
      evaluateMetrics [false] [false] = none := by
  refine ⟨by decide, ?_, by decide⟩
  rintro ⟨tn, fp, fnc, tp, h⟩
  rw [show conmatFlatten [false] [false] = [1] by decide] at h
  simp at h

/-- Claim C4 (amended): for every call to evaluate_model where y_valid and
y_pred are equal-length sequences over labels {0, 1} in which each of the two
labels occurs somewhere in y_valid or y_pred (so the inferred confusion matrix
is 2 by 2), the four confusion-matrix counts TN + FP + FN + TP sum to the
length of y_valid. -/
theorem conmat_counts_sum (yv yp : List Bool) (hlen : yv.length = yp.length)
    (h0 : false ∈ yv ++ yp) (h1 : true ∈ yv ++ yp) :
    ∃ tn fp fnc tp : ℕ, conmatFlatten yv yp = [tn, fp, fnc, tp] ∧
      tn + fp + fnc + tp = yv.length :=
  ⟨_, _, _, _, conmatFlatten_both yv yp h0 h1, countPairs_partition yv yp hlen⟩

theorem conmat_counts_sum_witness :
    ([false, true] : List Bool).length = ([true, false] : List Bool).length ∧
    false ∈ [false, true] ++ [true, false] ∧ true ∈ [false, true] ++ [true, false] ∧
    (∃ tn fp fnc tp : ℕ, conmatFlatten [false, true] [true, false] = [tn, fp, fnc, tp] ∧
      tn + fp + fnc + tp = ([false, true] : List Bool).length) :=
  ⟨by decide, by decide, by decide,
    conmat_counts_sum [false, true] [true, false] (by decide) (by decide) (by decide)⟩

/-- Claim C6: each of the returned metrics Sensitivity (recall), Specificity,
PPV (precision) and NPV lies in [0, 1] whenever its denominator (TP+FN, TN+FP,
TP+FP, TN+FN respectively) is non-zero. -/
theorem evaluate_model_metrics_in_unit_interval (yv yp : List Bool) (tn fp fnc tp : ℕ)
    (h : conmatFlatten yv yp = [tn, fp, fnc, tp]) :
    ∃ m, evaluateMetrics yv yp = some m ∧
      (tp + fnc ≠ 0 → ∃ q, m.sensitivity = some q ∧ 0 ≤ q ∧ q ≤ 1) ∧
      (tn + fp ≠ 0 → ∃ q, m.specificity = some q ∧ 0 ≤ q ∧ q ≤ 1) ∧
      (tp + fp ≠ 0 → ∃ q, m.ppv = some q ∧ 0 ≤ q ∧ q ≤ 1) ∧
      (tn + fnc ≠ 0 → ∃ q, m.npv = some q ∧ 0 ≤ q ∧ q ≤ 1) := by
  refine ⟨_, evaluateMetrics_of_conmat yv yp tn fp fnc tp h, ?_, ?_, ?_, ?_⟩
  · intro hd
    refine ⟨_, ?_, np_round4_ratio_mem_unit tp (tp + fnc) (Nat.le_add_right _ _) hd⟩
    show (npDivNat tp (tp + fnc)).map np_round4 = _
    simp only [npDivNat, if_neg hd, Option.map_some']
  · intro hd
    refine ⟨_, ?_, np_round4_ratio_mem_unit tn (tn + fp) (Nat.le_add_right _ _) hd⟩
    show (npDivNat tn (tn + fp)).map np_round4 = _
    simp only [npDivNat, if_neg hd, Option.map_some']
  · intro hd
    refine ⟨_, ?_, np_round4_ratio_mem_unit tp (tp + fp) (Nat.le_add_right _ _) hd⟩
    show ((computePPV tp fp).1).map np_round4 = _
    simp only [computePPV, npDivExcept, npDivNat, if_neg hd, Option.map_some']
  · intro hd
    refine ⟨_, ?_, np_round4_ratio_mem_unit tn (tn + fnc) (Nat.le_add_right _ _) hd⟩
    show (npDivNat tn (tn + fnc)).map np_round4 = _
    simp only [npDivNat, if_neg hd, Option.map_some']

theorem evaluate_model_metrics_in_unit_interval_witness :
    conmatFlatten [false, false, true, true] [false, true, false, true] = [1, 1, 1, 1] ∧
    (∃ m, evaluateMetrics [false, false, true, true] [false, true, false, true] = some m ∧
      ((1 : ℕ) + 1 ≠ 0 → ∃ q, m.sensitivity = some q ∧ 0 ≤ q ∧ q ≤ 1) ∧
      ((1 : ℕ) + 1 ≠ 0 → ∃ q, m.specificity = some q ∧ 0 ≤ q ∧ q ≤ 1) ∧
      ((1 : ℕ) + 1 ≠ 0 → ∃ q, m.ppv = some q ∧ 0 ≤ q ∧ q ≤ 1) ∧
      ((1 : ℕ) + 1 ≠ 0 → ∃ q, m.npv = some q ∧ 0 ≤ q ∧ q ≤ 1)) :=
  ⟨by decide, evaluate_model_metrics_in_unit_interval _ _ 1 1 1 1 (by decide)⟩

/-- Claim C1 (code-bug evidence): at y_valid = [0, 1], y_pred = [0, 0] the
confusion matrix has TP + FP = 0, yet the division computing PPV divides numpy
int64 scalars, which on a zero denominator yields NaN with a RuntimeWarning
instead of raising ZeroDivisionError.  The except-branch never runs: no warning
is printed and the returned PPV is NaN (`none`), not 0. -/
theorem ppv_zero_division_not_caught :
    (evaluateMetrics [false, true] [false, false]).map (fun m => (m.ppv, m.ppvWarning))
      = some (none, false) := by decide

theorem f1Score_eq_manual (yv yp : List Bool)
    (hd : 2 * countPairs yv yp true true + countPairs yv yp false true +
      countPairs yv yp true false ≠ 0) :
    f1Score yv yp = 2 * (countPairs yv yp true true : ℚ) /
      (2 * (countPairs yv yp true true : ℚ) + (countPairs yv yp false true : ℚ) +
        (countPairs yv yp true false : ℚ)) := by
  unfold f1Score
  by_cases h0 : countPairs yv yp true true = 0
  · simp [h0]
  · have htp : (0 : ℚ) < (countPairs yv yp true true : ℚ) := by
      exact_mod_cast Nat.pos_of_ne_zero h0
    have hfp : (0 : ℚ) ≤ (countPairs yv yp false true : ℚ) := by positivity
    have hfn : (0 : ℚ) ≤ (countPairs yv yp true false : ℚ) := by positivity
    have hden1 : (countPairs yv yp true true : ℚ) + (countPairs yv yp false true : ℚ) ≠ 0 := by
      linarith
    have hden2 : (countPairs yv yp true true : ℚ) + (countPairs yv yp true false : ℚ) ≠ 0 := by
      linarith
    simp only [if_neg hden1, if_neg hden2]
    have hp : (0 : ℚ) < (countPairs yv yp true true : ℚ) /
        ((countPairs yv yp true true : ℚ) + (countPairs yv yp false true : ℚ)) :=
      div_pos htp (by linarith)
    have hr : (0 : ℚ) < (countPairs yv yp true true : ℚ) /
        ((countPairs yv yp true true : ℚ) + (countPairs yv yp true false : ℚ)) :=
      div_pos htp (by linarith)
    rw [if_neg (by linarith)]
    have hden3 : 2 * (countPairs yv yp true true : ℚ) + (countPairs yv yp false true : ℚ) +
        (countPairs yv yp true false : ℚ) ≠ 0 := by linarith
    field_simp
    ring

/-- Claim C8: whenever 2TP + FP + FN > 0, the library F1 (sklearn f1_score,
harmonic mean of precision and recall with zero fallbacks) and the manually
computed F1 = 2TP/(2TP+FP+FN) agree after the rounding to 4 decimal places:
the two computations of F1 stored in the metrics dictionary are equal. -/
theorem f1_library_manual_equivalence (yv yp : List Bool) (tn fp fnc tp : ℕ)
    (h : conmatFlatten yv yp = [tn, fp, fnc, tp]) (hd : 2 * tp + fp + fnc ≠ 0) :
    ∃ m, evaluateMetrics yv yp = some m ∧ m.f1 = m.f1Manual ∧
      m.f1 = some (np_round4 (2 * (tp : ℚ) / (2 * (tp : ℚ) + (fp : ℚ) + (fnc : ℚ)))) := by
  obtain ⟨e1, e2, e3, e4⟩ := conmat_counts yv yp tn fp fnc tp h
  have hd' : 2 * countPairs yv yp true true + countPairs yv yp false true +
      countPairs yv yp true false ≠ 0 := by
    rw [← e4, ← e2, ← e3]; exact hd
  have hf1 : f1Score yv yp = 2 * (tp : ℚ) / (2 * (tp : ℚ) + (fp : ℚ) + (fnc : ℚ)) := by
    rw [f1Score_eq_manual yv yp hd', ← e4, ← e2, ← e3]
  refine ⟨_, evaluateMetrics_of_conmat yv yp tn fp fnc tp h, ?_, ?_⟩
  · show some (np_round4 (f1Score yv yp)) = (npDivNat (2 * tp) (2 * tp + fp + fnc)).map np_round4
    simp only [npDivNat, if_neg hd, Option.map_some', hf1]
    push_cast
    rfl
  · show some (np_round4 (f1Score yv yp)) = _
    rw [hf1]

theorem f1_library_manual_equivalence_witness :
    conmatFlatten [false, false, true, true] [false, true, false, true] = [1, 1, 1, 1] ∧
    2 * 1 + 1 + 1 ≠ 0 ∧
    (∃ m, evaluateMetrics [false, false, true, true] [false, true, false, true] = some m ∧
      m.f1 = m.f1Manual ∧
      m.f1 = some (np_round4 (2 * (1 : ℚ) / (2 * (1 : ℚ) + (1 : ℚ) + (1 : ℚ))))) :=
  ⟨by decide, by decide,
    f1_library_manual_equivalence _ _ 1 1 1 1 (by decide) (by decide)⟩

/-- Modelled from the spec: `SMOTE(random_state=15).fit_resample` from the
imbalanced-learn library, which is not part of this repository's sources.  Per
the spec's glossary SMOTE balances class distributions "by synthesizing
interpolated minority-class samples", and "oversampling equalizes class counts
in the resampled training set": all original samples are kept and synthetic
minority-class samples are appended until both classes reach the majority
count.  The synthesized feature rows are abstracted as cyclic picks from the
existing minority rows (the claims below quantify only over the labels and
over the validation fold, which fit_resample never receives). -/
def smoteFitResample (X : List (List ℚ)) (y : List Bool) : List (List ℚ) × List Bool :=
  let n1 := y.count true
  let n0 := y.count false
  let minority := if n1 < n0 then true else false
  let k := max n0 n1 - min n0 n1
  let minRows := ((X.zip y).filter (fun p => p.2 == minority)).map (fun p => p.1)
  (X ++ (List.range k).map (fun i => minRows.getD (i % max minRows.length 1) []),
   y ++ List.replicate k minority)

/-- Claim C3: for every binary-labelled training set whose minority class has
at least one sample, the labels returned by SMOTE().fit_resample contain an
equal number of class-0 and class-1 samples: the minority class is oversampled
up to the majority count and no majority samples are removed (the originals
are kept as a prefix, with only synthetic minority samples appended). -/
theorem smote_equalizes_class_counts (X : List (List ℚ)) (y : List Bool)
    (h1 : 0 < y.count true) (h0 : 0 < y.count false) :
    ((smoteFitResample X y).2.count true = (smoteFitResample X y).2.count false) ∧
    (smoteFitResample X y).2.count true = max (y.count false) (y.count true) ∧
    (∃ pad, (smoteFitResample X y).2 = y ++ pad) ∧
    (∃ padX, (smoteFitResample X y).1 = X ++ padX) := by
  refine ⟨?_, ?_, ⟨_, rfl⟩, ⟨_, rfl⟩⟩ <;>
  · unfold smoteFitResample
    by_cases hlt : y.count true < y.count false <;>
      simp [hlt, List.count_append, List.count_replicate] <;> omega

theorem smote_equalizes_class_counts_witness :
    0 < ([false, true, false] : List Bool).count true ∧
    0 < ([false, true, false] : List Bool).count false ∧
    (((smoteFitResample [[0], [1], [2]] [false, true, false]).2.count true =
        (smoteFitResample [[0], [1], [2]] [false, true, false]).2.count false) ∧
      (smoteFitResample [[0], [1], [2]] [false, true, false]).2.count true =
        max (([false, true, false] : List Bool).count false)
          (([false, true, false] : List Bool).count true) ∧
      (∃ pad, (smoteFitResample [[0], [1], [2]] [false, true, false]).2 =
        [false, true, false] ++ pad) ∧
      (∃ padX, (smoteFitResample [[0], [1], [2]] [false, true, false]).1 =
        [[0], [1], [2]] ++ padX)) :=
  ⟨by decide, by decide,
    smote_equalizes_class_counts [[0], [1], [2]] [false, true, false] (by decide) (by decide)⟩

/-- Modelled from the spec: the `imblearn.pipeline.Pipeline` behaviour used by
create_pipeline (the library is not part of this repository's sources).  A
pipeline bundles a preprocessor (fit on the training fold, transform on any
fold), an optional sampler, and a final model.  `P` is the fitted-preprocessor
state, `M` the fitted-model state. -/
structure ImbPipeline (P M Row : Type) where
  preFit : List Row → P
  preTransform : P → List Row → List Row
  sampler : Option (List Row → List Bool → List Row × List Bool)
  modelFit : List Row → List Bool → M
  modelPredict : M → List Row → List Bool

/-- create_pipeline (lines 102–135 of stroke_modeling.py): bundles the
preprocessor, the SMOTE step exactly when use_SMOTE is true, and the model. -/
def createPipeline {P M : Type} (preFit : List (List ℚ) → P)
    (preTransform : P → List (List ℚ) → List (List ℚ)) (useSMOTE : Bool)
    (modelFit : List (List ℚ) → List Bool → M)
    (modelPredict : M → List (List ℚ) → List Bool) : ImbPipeline P M (List ℚ) :=
  { preFit := preFit
    preTransform := preTransform
    sampler := if useSMOTE then some smoteFitResample else none
    modelFit := modelFit
    modelPredict := modelPredict }

/-- Modelled from the spec: imblearn Pipeline.fit — fit_transform the
preprocessor on the training fold, pass the transformed training data through
the sampler when one is present, and fit the model on the result. -/
def pipelineFit {P M Row : Type} (pl : ImbPipeline P M Row) (X : List Row)
    (y : List Bool) : P × M :=
  let ps := pl.preFit X
  let X1 := pl.preTransform ps X
  let sampled := match pl.sampler with
    | some s => s X1 y
    | none => (X1, y)
  (ps, pl.modelFit sampled.1 sampled.2)

/-- Modelled from the spec: imblearn Pipeline.predict — transform the incoming
fold with the fitted preprocessor and predict with the fitted model; sampler
steps are applied only during fit, never during predict. -/
def pipelinePredict {P M Row : Type} (pl : ImbPipeline P M Row) (fitted : P × M)
    (Xv : List Row) : List Bool :=
  pl.modelPredict fitted.2 (pl.preTransform fitted.1 Xv)

/-- Lines 459–470 of stroke_modeling.py: the manual SMOTE path.  Only the
processed training fold is resampled; the result pairs the
(X_train_resampled, y_train_resampled) used to fit the model with the
(X_valid_processed, y_valid) passed to predict and to evaluate_model. -/
def smoteManualPath (XtP : List (List ℚ)) (yt : List Bool) (XvP : List (List ℚ))
    (yv : List Bool) : (List (List ℚ) × List Bool) × (List (List ℚ) × List Bool) :=
  (smoteFitResample XtP yt, (XvP, yv))

/-- Claim C7: synthetic minority oversampling is applied only to training data.
In every pipeline built by create_pipeline with use_SMOTE = true, predicting on
the validation fold only transforms X_valid with the fitted preprocessor and
applies the fitted model — the prediction does not depend on the sampler step
at all (replacing it by any other sampler, or none, leaves predict unchanged
for the same fitted state) — and in the manual path the validation frames
returned for predict and evaluate_model are exactly the unmodified inputs
X_valid_processed and y_valid. -/
theorem smote_only_applied_to_training {P M : Type}
    (preFit : List (List ℚ) → P) (preTransform : P → List (List ℚ) → List (List ℚ))
    (modelFit : List (List ℚ) → List Bool → M)
    (modelPredict : M → List (List ℚ) → List Bool)
    (Xt : List (List ℚ)) (yt : List Bool) (Xv : List (List ℚ)) (yv : List Bool)
    (XtP XvP : List (List ℚ)) :
    (pipelinePredict (createPipeline preFit preTransform true modelFit modelPredict)
        (pipelineFit (createPipeline preFit preTransform true modelFit modelPredict) Xt yt) Xv
      = modelPredict
          (pipelineFit (createPipeline preFit preTransform true modelFit modelPredict) Xt yt).2
          (preTransform (preFit Xt) Xv)) ∧
    (∀ s1 s2 fitted,
      pipelinePredict
        { createPipeline preFit preTransform true modelFit modelPredict with sampler := s1 }
        fitted Xv
      = pipelinePredict
        { createPipeline preFit preTransform true modelFit modelPredict with sampler := s2 }
        fitted Xv) ∧
    (smoteManualPath XtP yt XvP yv).2 = (XvP, yv) :=
  ⟨rfl, fun _ _ _ => rfl, rfl⟩

/-! Preprocessing (manual_preprocess, lines 367–404).  Missing values in the
dataframes are pandas NaN, so a numeric cell is `Option ℚ` (`none` = NaN) and a
categorical cell `Option String`; a frame is its list of columns. -/

abbrev NumCol := List (Option ℚ)
abbrev CatCol := List (Option String)

/-- SimpleImputer (default strategy='mean'), fit: the statistic of a column is
the mean of its non-missing entries (sklearn skips NaNs); it is NaN (`none`)
only when every entry is missing. -/
def meanStat (c : NumCol) : Option ℚ :=
  let vs := c.filterMap id
  if vs.length = 0 then none else some (vs.sum / vs.length)

/-- SimpleImputer, transform: replace each missing entry by the fit statistic
(fit on the training fold), leaving present entries unchanged. -/
def imputeCol {α : Type} (stat : Option α) (c : List (Option α)) : List (Option α) :=
  c.map (fun v => match v with | some x => some x | none => stat)

/-- SimpleImputer(strategy='most_frequent'), fit: the most frequent
non-missing value of the training column, ties broken by the smallest value
(sklearn's behaviour); NaN (`none`) only when every entry is missing. -/
def mostFrequentStat (c : CatCol) : Option String :=
  let vs := c.filterMap id
  vs.foldl
    (fun best v =>
      match best with
      | none => some v
      | some b =>
        if vs.count b < vs.count v ∨ (vs.count v = vs.count b ∧ v < b) then some v
        else some b)
    none

/-- StandardScaler, fit: mean and population variance of the column.  The
statistics are NaN (`none`) when the column is empty or contains a NaN. -/
def scalerStats (c : NumCol) : Option (ℚ × ℚ) :=
  if c.length = 0 then none
  else if c.any (fun v => v.isNone) then none
  else
    let vs := c.filterMap id
    let m := vs.sum / vs.length
    some (m, (vs.map (fun x => (x - m) ^ 2)).sum / vs.length)

/-- StandardScaler, transform with the statistics fitted on the training fold:
standardize each entry as (x − mean)/scale with scale = sqrt(variance), a zero
variance being replaced by a unit scale (sklearn's handling of constant
columns); NaN statistics or entries propagate to NaN. -/
noncomputable def scalerTransform (stats : Option (ℚ × ℚ)) (c : NumCol) :
    List (Option ℝ) :=
  c.map (fun v =>
    match stats, v with
    | some (m, s2), some x =>
      some (((x : ℝ) - (m : ℝ)) / (if s2 = 0 then 1 else Real.sqrt (s2 : ℝ)))
    | _, _ => none)

/-- OneHotEncoder(handle_unknown='ignore'), fit: the categories of a fitted
column are the distinct values observed in the (imputed) training column.
Sklearn keeps them sorted; the order of the indicator columns is immaterial to
every claim below, so the first-occurrence order of `dedup` is used. -/
def oneHotCategories (c : CatCol) : List String :=
  (c.filterMap id).dedup

/-- OneHotEncoder, transform: one indicator column per fitted category; a cell
is 1 when the entry equals that category and 0 otherwise, so an entry whose
category was not seen during fit (handle_unknown='ignore') yields all-zero
indicators. -/
def oneHotTransform (cats : List String) (c : CatCol) : List (List (Option ℝ)) :=
  cats.map (fun cat => c.map (fun v => some (if v = some cat then (1 : ℝ) else 0)))

/-- manual_preprocess (lines 367–404 of stroke_modeling.py), columnwise: the
numeric columns are mean-imputed (imputer fit on the training fold) then
standardized (scaler fit on the imputed training fold); the categorical
columns are most-frequent-imputed then one-hot encoded against the categories
of the imputed training fold; each processed frame is the list of scaled
numeric columns followed by the indicator columns. -/
noncomputable def manual_preprocess (trainNum validNum : List NumCol)
    (trainCat validCat : List CatCol) :
    List (List (Option ℝ)) × List (List (Option ℝ)) :=
  let numPairs := trainNum.zip validNum
  let numT := numPairs.map (fun p =>
    scalerTransform (scalerStats (imputeCol (meanStat p.1) p.1))
      (imputeCol (meanStat p.1) p.1))
  let numV := numPairs.map (fun p =>
    scalerTransform (scalerStats (imputeCol (meanStat p.1) p.1))
      (imputeCol (meanStat p.1) p.2))
  let catPairs := trainCat.zip validCat
  let catT := (catPairs.map (fun p =>
    oneHotTransform (oneHotCategories (imputeCol (mostFrequentStat p.1) p.1))
      (imputeCol (mostFrequentStat p.1) p.1))).flatten
  let catV := (catPairs.map (fun p =>
    oneHotTransform (oneHotCategories (imputeCol (mostFrequentStat p.1) p.1))
      (imputeCol (mostFrequentStat p.1) p.2))).flatten
  (numT ++ catT, numV ++ catV)

theorem imputeCol_isSome {α : Type} (m : α) (c : List (Option α)) :
    ∀ v ∈ imputeCol (some m) c, v.isSome = true := by
  intro v hv
  unfold imputeCol at hv
  obtain ⟨x, _, hx⟩ := List.mem_map.mp hv
  cases x <;> simp [← hx]

theorem meanStat_isSome (c : NumCol) (h : c.filterMap id ≠ []) :
    ∃ m, meanStat c = some m := by
  unfold meanStat
  rw [if_neg (fun hl => h (List.length_eq_zero.mp hl))]
  exact ⟨_, rfl⟩

theorem foldl_step_isSome {α : Type} (f : Option α → α → Option α)
    (hstep : ∀ acc v, (f acc v).isSome = true) :
    ∀ (l : List α) (acc : Option α), l ≠ [] → (l.foldl f acc).isSome = true := by
  intro l
  induction l with
  | nil => intro acc hne; exact absurd rfl hne
  | cons v l ih =>
    intro acc _
    show (l.foldl f (f acc v)).isSome = true
    cases l with
    | nil => exact hstep acc v
    | cons w l2 => exact ih (f acc v) (by simp)

theorem mostFrequentStat_isSome (c : CatCol) (h : c.filterMap id ≠ []) :
    ∃ s, mostFrequentStat c = some s := by
  rw [← Option.isSome_iff_exists]
  exact foldl_step_isSome _ (by
    intro acc v
    cases acc with
    | none => rfl
    | some b => dsimp only; split <;> rfl) _ none h

theorem filterMap_ne_nil_of_ne {α : Type} (c : List (Option α))
    (h : c.filterMap id ≠ []) : c ≠ [] := by
  intro hc
  subst hc
  exact h rfl

theorem scalerStats_isSome (c : NumCol) (hne : c ≠ [])
    (hall : ∀ v ∈ c, v.isSome = true) : ∃ st, scalerStats c = some st := by
  unfold scalerStats
  have h1 : ¬ c.length = 0 := fun hl => hne (List.length_eq_zero.mp hl)
  have h2 : ¬ (c.any (fun v => v.isNone) = true) := by
    intro hany
    obtain ⟨v, hv, hnone⟩ := List.any_eq_true.mp hany
    have hs := hall v hv
    cases v with
    | none => simp at hs
    | some x => simp at hnone
  rw [if_neg h1, if_neg h2]
  exact ⟨_, rfl⟩

theorem scalerTransform_isSome (st : ℚ × ℚ) (c : NumCol)
    (hall : ∀ v ∈ c, v.isSome = true) :
    ∀ v ∈ scalerTransform (some st) c, v.isSome = true := by
  intro v hv
  unfold scalerTransform at hv
  obtain ⟨x, hx, hxv⟩ := List.mem_map.mp hv
  rcases st with ⟨m, s2⟩
  cases x with
  | none =>
    have := hall none hx
    simp at this
  | some x0 => simp [← hxv]

theorem oneHotTransform_isSome (cats : List String) (c : CatCol) :
    ∀ col ∈ oneHotTransform cats c, ∀ v ∈ col, v.isSome = true := by
  intro col hcol v hv
  unfold oneHotTransform at hcol
  obtain ⟨cat, _, hcat⟩ := List.mem_map.mp hcol
  subst hcat
  obtain ⟨x, _, hx⟩ := List.mem_map.mp hv
  simp [← hx]

/-- Claim C5: for every pair of input frames in which each numerical training
column has at least one non-missing value and each categorical training column
has at least one non-missing value, both frames returned by manual_preprocess
contain no missing values in any column (numeric columns are mean-imputed from
the training fold, categorical columns most-frequent-imputed then one-hot
encoded). -/
theorem manual_preprocess_no_missing (trainNum validNum : List NumCol)
    (trainCat validCat : List CatCol)
    (hnum : ∀ c ∈ trainNum, c.filterMap id ≠ [])
    (hcat : ∀ c ∈ trainCat, c.filterMap id ≠ []) :
    (∀ col ∈ (manual_preprocess trainNum validNum trainCat validCat).1,
      ∀ v ∈ col, v.isSome = true) ∧
    (∀ col ∈ (manual_preprocess trainNum validNum trainCat validCat).2,
      ∀ v ∈ col, v.isSome = true) := by
  have numSide : ∀ (side : (NumCol × NumCol) → NumCol),
      (∀ p : NumCol × NumCol, p ∈ trainNum.zip validNum →
        ∀ col ∈ [scalerTransform (scalerStats (imputeCol (meanStat p.1) p.1))
          (imputeCol (meanStat p.1) (side p))], ∀ v ∈ col, v.isSome = true) := by
    intro side p hp col hcol v hv
    simp only [List.mem_singleton] at hcol
    subst hcol
    have hp1 : p.1 ∈ trainNum := (List.of_mem_zip hp).1
    obtain ⟨m, hm⟩ := meanStat_isSome p.1 (hnum p.1 hp1)
    rw [hm] at hv
    have htrAll : ∀ w ∈ imputeCol (some m) p.1, w.isSome = true := imputeCol_isSome m p.1
    have htrNe : imputeCol (some m) p.1 ≠ [] := by
      intro hmt
      exact filterMap_ne_nil_of_ne p.1 (hnum p.1 hp1) (by simpa [imputeCol] using hmt)
    obtain ⟨st, hst⟩ := scalerStats_isSome _ htrNe htrAll
    rw [hst] at hv
    exact scalerTransform_isSome st _ (imputeCol_isSome m (side p)) v hv
  constructor
  · intro col hcol
    unfold manual_preprocess at hcol
    rw [List.mem_append] at hcol
    rcases hcol with hcol | hcol
    · obtain ⟨p, hp, hval⟩ := List.mem_map.mp hcol
      exact numSide (fun p => p.1) p hp col (by simp [hval])
    · obtain ⟨block, hblock, hcolb⟩ := List.mem_flatten.mp hcol
      obtain ⟨p, _, hval⟩ := List.mem_map.mp hblock
      subst hval
      exact oneHotTransform_isSome _ _ col hcolb
  · intro col hcol
    unfold manual_preprocess at hcol
    rw [List.mem_append] at hcol
    rcases hcol with hcol | hcol
    · obtain ⟨p, hp, hval⟩ := List.mem_map.mp hcol
      exact numSide (fun p => p.2) p hp col (by simp [hval])
    · obtain ⟨block, hblock, hcolb⟩ := List.mem_flatten.mp hcol
      obtain ⟨p, _, hval⟩ := List.mem_map.mp hblock
      subst hval
      exact oneHotTransform_isSome _ _ col hcolb

theorem manual_preprocess_no_missing_witness :
    (∀ c ∈ ([[some (1 : ℚ), none]] : List NumCol), c.filterMap id ≠ []) ∧
    (∀ c ∈ ([[some "a", none]] : List CatCol), c.filterMap id ≠ []) ∧
    ((∀ col ∈ (manual_preprocess [[some (1 : ℚ), none]] [[none, some (2 : ℚ)]]
        [[some "a", none]] [[some "b", some "a"]]).1, ∀ v ∈ col, v.isSome = true) ∧
    (∀ col ∈ (manual_preprocess [[some (1 : ℚ), none]] [[none, some (2 : ℚ)]]
        [[some "a", none]] [[some "b", some "a"]]).2, ∀ v ∈ col, v.isSome = true)) :=
  ⟨by decide, by decide,
    manual_preprocess_no_missing [[some (1 : ℚ), none]] [[none, some (2 : ℚ)]]
      [[some "a", none]] [[some "b", some "a"]] (by decide) (by decide)⟩

end StrokePred

namespace StrokeEDA

/-- Worker for `uniqueLevels`: collect values not yet seen, in order. -/
def uniqueLevelsAux : List String → List String → List String
  | [], _ => []
  | c :: cs, seen =>
    if c ∈ seen then uniqueLevelsAux cs seen else c :: uniqueLevelsAux cs (c :: seen)

/-- Distinct values of a list in order of first appearance: the levels
enumerated by `pd.factorize(categories)` (code i belongs to the i-th new value
encountered) and, up to ordering, the row/column levels of `pd.crosstab`. -/
def uniqueLevels (l : List String) : List String := uniqueLevelsAux l []

theorem mem_uniqueLevelsAux : ∀ (l seen : List String) (v : String),
    v ∈ uniqueLevelsAux l seen ↔ v ∈ l ∧ v ∉ seen := by
  intro l
  induction l with
  | nil => intro seen v; simp [uniqueLevelsAux]
  | cons c cs ih =>
    intro seen v
    unfold uniqueLevelsAux
    by_cases hc : c ∈ seen
    · rw [if_pos hc, ih]
      constructor
      · rintro ⟨hv, hs⟩
        exact ⟨List.mem_cons_of_mem _ hv, hs⟩
      · rintro ⟨hv, hs⟩
        rcases List.mem_cons.mp hv with rfl | hv
        · exact absurd hc hs
        · exact ⟨hv, hs⟩
    · rw [if_neg hc]
      constructor
      · intro hmem
        rcases List.mem_cons.mp hmem with rfl | hmem
        · exact ⟨List.mem_cons_self _ _, hc⟩
        · obtain ⟨hv, hs⟩ := (ih _ v).mp hmem
          exact ⟨List.mem_cons_of_mem _ hv, fun hvs => hs (List.mem_cons_of_mem _ hvs)⟩
      · rintro ⟨hv, hs⟩
        rcases List.mem_cons.mp hv with rfl | hv
        · exact List.mem_cons_self _ _
        · by_cases hvc : v = c
          · subst hvc; exact List.mem_cons_self _ _
          · refine List.mem_cons_of_mem _ ((ih _ v).mpr ⟨hv, ?_⟩)
            intro hvs
            rcases List.mem_cons.mp hvs with h | h
            · exact hvc h
            · exact hs h

theorem nodup_uniqueLevelsAux : ∀ (l seen : List String), (uniqueLevelsAux l seen).Nodup := by
  intro l
  induction l with
  | nil => intro seen; simp [uniqueLevelsAux]
  | cons c cs ih =>
    intro seen
    unfold uniqueLevelsAux
    by_cases hc : c ∈ seen
    · rw [if_pos hc]; exact ih seen
    · rw [if_neg hc]
      refine List.nodup_cons.mpr ⟨?_, ih (c :: seen)⟩
      intro hmem
      exact ((mem_uniqueLevelsAux cs (c :: seen) c).mp hmem).2 (List.mem_cons_self _ _)

theorem mem_uniqueLevels {l : List String} {v : String} : v ∈ uniqueLevels l ↔ v ∈ l := by
  unfold uniqueLevels
  rw [mem_uniqueLevelsAux]
  simp

theorem nodup_uniqueLevels (l : List String) : (uniqueLevels l).Nodup :=
  nodup_uniqueLevelsAux l []

theorem sum_map_add {α : Type} (l : List α) (f g : α → ℚ) :
    (l.map (fun a => f a + g a)).sum = (l.map f).sum + (l.map g).sum := by
  induction l with
  | nil => simp
  | cons a l ih =>
    simp only [List.map_cons, List.sum_cons, ih]
    ring

theorem sum_map_filter_split {α : Type} (l : List α) (q : α → Bool) (f : α → ℚ) :
    ((l.filter q).map f).sum + ((l.filter (fun a => ! q a)).map f).sum = (l.map f).sum := by
  induction l with
  | nil => simp
  | cons a l ih =>
    by_cases hq : q a = true
    · simp [List.filter_cons, hq]
      rw [← ih]
      ring
    · rw [Bool.not_eq_true] at hq
      simp [List.filter_cons, hq]
      rw [← ih]
      ring

theorem sum_over_partition {α : Type} (key : α → String) (f : α → ℚ) :
    ∀ (L : List String) (l : List α), L.Nodup → (∀ p ∈ l, key p ∈ L) →
      (L.map (fun c => ((l.filter (fun p => key p == c)).map f).sum)).sum = (l.map f).sum := by
  intro L
  induction L with
  | nil =>
    intro l _ hcov
    cases l with
    | nil => simp
    | cons p l => exact absurd (hcov p (List.mem_cons_self _ _)) (List.not_mem_nil _)
  | cons c L ih =>
    intro l hnd hcov
    have hnd' := List.nodup_cons.mp hnd
    rw [List.map_cons, List.sum_cons]
    have hrest : (L.map (fun cc => ((l.filter (fun p => key p == cc)).map f).sum)).sum
        = ((l.filter (fun p => ! (key p == c))).map f).sum := by
      rw [← ih (l.filter (fun p => ! (key p == c))) hnd'.2 ?cov]
      case cov =>
        intro p hp
        have hmem := List.mem_filter.mp hp
        have hkey := hcov p hmem.1
        rcases List.mem_cons.mp hkey with heq | hmemL
        · exfalso
          have := hmem.2
          rw [heq] at this
          simp at this
        · exact hmemL
      apply congrArg
      apply List.map_congr_left
      intro cc hcc
      have hne : cc ≠ c := fun h => hnd'.1 (h ▸ hcc)
      apply congrArg
      apply congrArg
      rw [List.filter_filter]
      apply List.filter_congr
      intro p _
      by_cases hkc : key p == cc
      · have : key p = cc := by simpa using hkc
        have : ¬ (key p == c) = true := by simp [this, hne]
        simp [hkc, this]
      · simp [hkc]
    rw [hrest, sum_map_filter_split]

/-- Group of measurements for category level c: the i-th entry of
`cat_measures` in correlation_ratio (lines 524–527 of stroke_eda.py) when c is
the i-th factorized level. -/
def groupOf (cats : List String) (meas : List ℚ) (c : String) : List ℚ :=
  ((cats.zip meas).filter (fun p => p.1 == c)).map Prod.snd

/-- `np.average` of a list (sum over length). -/
def listMean (l : List ℚ) : ℚ := l.sum / l.length

/-- y_total_avg (line 528): sum of group mean times group size over the
factorized levels, divided by the sum of group sizes. -/
def grandMean (cats : List String) (meas : List ℚ) : ℚ :=
  ((uniqueLevels cats).map (fun c =>
    listMean (groupOf cats meas c) * ((groupOf cats meas c).length : ℚ))).sum /
  ((uniqueLevels cats).map (fun c => ((groupOf cats meas c).length : ℚ))).sum

/-- numerator (line 529): the between-group sum of squares. -/
def crNumerator (cats : List String) (meas : List ℚ) : ℚ :=
  ((uniqueLevels cats).map (fun c =>
    ((groupOf cats meas c).length : ℚ) *
      (listMean (groupOf cats meas c) - grandMean cats meas) ^ 2)).sum

/-- denominator (line 530): the total sum of squares over all measurements. -/
def crDenominator (cats : List String) (meas : List ℚ) : ℚ :=
  (meas.map (fun x => (x - grandMean cats meas) ^ 2)).sum

/-- correlation_ratio (lines 517–535 of stroke_eda.py): 0.0 when the
between-group sum of squares is zero, otherwise sqrt(numerator/denominator). -/
noncomputable def correlation_ratio (cats : List String) (meas : List ℚ) : ℝ :=
  if crNumerator cats meas = 0 then 0
  else Real.sqrt (((crNumerator cats meas / crDenominator cats meas : ℚ) : ℝ))

theorem sum_sq_sub (l : List ℚ) (a : ℚ) :
    (l.map (fun x => (x - a) ^ 2)).sum =
      (l.map (fun x => x ^ 2)).sum - 2 * a * l.sum + (l.length : ℚ) * a ^ 2 := by
  induction l with
  | nil => simp
  | cons x l ih =>
    simp only [List.map_cons, List.sum_cons, List.length_cons, ih]
    push_cast
    ring

theorem sum_sq_map_nonneg (l : List ℚ) (f : ℚ → ℚ) :
    0 ≤ (l.map (fun x => (f x) ^ 2)).sum :=
  List.sum_nonneg (by
    intro q hq
    obtain ⟨x, _, hx⟩ := List.mem_map.mp hq
    rw [← hx]
    positivity)

/-- Parallel-axis bound: for a non-empty list, n times the squared deviation of
the mean from any point is at most the sum of squared deviations from that
point. -/
theorem sum_sq_dev_ge (l : List ℚ) (hl : l ≠ []) (a : ℚ) :
    (l.length : ℚ) * (listMean l - a) ^ 2 ≤ (l.map (fun x => (x - a) ^ 2)).sum := by
  have hn : (0 : ℚ) < (l.length : ℚ) := by
    exact_mod_cast List.length_pos.mpr hl
  have e2 := sum_sq_sub l (listMean l)
  have h0 : 0 ≤ (l.map (fun x => (x - listMean l) ^ 2)).sum :=
    sum_sq_map_nonneg l (fun x => x - listMean l)
  rw [e2] at h0
  have hm : (l.length : ℚ) * listMean l = l.sum := by
    unfold listMean
    field_simp
  have h2 : 2 * a * ((l.length : ℚ) * listMean l) = 2 * a * l.sum := by rw [hm]
  have h3 : listMean l * ((l.length : ℚ) * listMean l) = listMean l * l.sum := by rw [hm]
  rw [sum_sq_sub l a]
  nlinarith [h0, h2, h3]

theorem crDenominator_partition (cats : List String) (meas : List ℚ)
    (hlen : cats.length = meas.length) :
    crDenominator cats meas =
      ((uniqueLevels cats).map (fun c =>
        ((groupOf cats meas c).map (fun x => (x - grandMean cats meas) ^ 2)).sum)).sum := by
  have hsnd : (cats.zip meas).map Prod.snd = meas :=
    List.map_snd_zip cats meas (le_of_eq hlen.symm)
  have hcov : ∀ p ∈ cats.zip meas, Prod.fst p ∈ uniqueLevels cats := by
    intro p hp
    rcases p with ⟨a, b⟩
    exact mem_uniqueLevels.mpr (List.of_mem_zip hp).1
  unfold crDenominator
  calc (meas.map (fun x => (x - grandMean cats meas) ^ 2)).sum
      = (((cats.zip meas).map Prod.snd).map (fun x => (x - grandMean cats meas) ^ 2)).sum := by
        rw [hsnd]
    _ = ((cats.zip meas).map (fun p => (p.2 - grandMean cats meas) ^ 2)).sum := by
        rw [List.map_map]
        rfl
    _ = ((uniqueLevels cats).map (fun c =>
          (((cats.zip meas).filter (fun p => p.1 == c)).map
            (fun p => (p.2 - grandMean cats meas) ^ 2)).sum)).sum :=
        (sum_over_partition Prod.fst (fun p => (p.2 - grandMean cats meas) ^ 2)
          (uniqueLevels cats) (cats.zip meas) (nodup_uniqueLevels cats) hcov).symm
    _ = ((uniqueLevels cats).map (fun c =>
          ((groupOf cats meas c).map (fun x => (x - grandMean cats meas) ^ 2)).sum)).sum := by
        apply congrArg
        apply List.map_congr_left
        intro c _
        unfold groupOf
        rw [List.map_map]
        rfl

/-- ANOVA decomposition bound: the between-group sum of squares never exceeds
the total sum of squares. -/
theorem crNumerator_le_crDenominator (cats : List String) (meas : List ℚ)
    (hlen : cats.length = meas.length)
    (hgrp : ∀ c ∈ uniqueLevels cats, groupOf cats meas c ≠ []) :
    crNumerator cats meas ≤ crDenominator cats meas := by
  rw [crDenominator_partition cats meas hlen]
  unfold crNumerator
  apply List.sum_le_sum
  intro c hc
  exact sum_sq_dev_ge (groupOf cats meas c) (hgrp c hc) (grandMean cats meas)

theorem crNumerator_nonneg (cats : List String) (meas : List ℚ) :
    0 ≤ crNumerator cats meas := by
  unfold crNumerator
  apply List.sum_nonneg
  intro q hq
  obtain ⟨c, _, hc⟩ := List.mem_map.mp hq
  rw [← hc]
  positivity

/-- Claim C9: for equal-length non-empty category/measurement sequences where
every factorized level has at least one measurement (and measurements all
equal to the grand mean only when the group means equal it too),
correlation_ratio lies in [0, 1]; the guarded branch returns 0.0 exactly when
the between-group sum of squares is 0, and otherwise sqrt(num/den) is at most
1 because the between-group sum of squares never exceeds the total sum of
squares. -/
theorem correlation_ratio_in_unit_interval (cats : List String) (meas : List ℚ)
    (hcne : cats ≠ []) (hmne : meas ≠ []) (hlen : cats.length = meas.length)
    (hgrp : ∀ c ∈ uniqueLevels cats, groupOf cats meas c ≠ [])
    (himp : (∀ x ∈ meas, x = grandMean cats meas) →
      ∀ c ∈ uniqueLevels cats, listMean (groupOf cats meas c) = grandMean cats meas) :
    crNumerator cats meas ≤ crDenominator cats meas ∧
    (correlation_ratio cats meas = 0 ↔ crNumerator cats meas = 0) ∧
    0 ≤ correlation_ratio cats meas ∧ correlation_ratio cats meas ≤ 1 := by
  have hle := crNumerator_le_crDenominator cats meas hlen hgrp
  have hnn := crNumerator_nonneg cats meas
  by_cases h0 : crNumerator cats meas = 0
  · unfold correlation_ratio
    rw [if_pos h0]
    exact ⟨hle, ⟨fun _ => h0, fun _ => rfl⟩, le_refl 0, zero_le_one⟩
  · unfold correlation_ratio
    rw [if_neg h0]
    have hpos : 0 < crNumerator cats meas := lt_of_le_of_ne hnn (Ne.symm h0)
    have hden : 0 < crDenominator cats meas := lt_of_lt_of_le hpos hle
    have hratio1 : crNumerator cats meas / crDenominator cats meas ≤ 1 :=
      (div_le_one hden).mpr hle
    have hratio0 : 0 < crNumerator cats meas / crDenominator cats meas :=
      div_pos hpos hden
    refine ⟨hle, ?_, Real.sqrt_nonneg _, Real.sqrt_le_one.mpr (by exact_mod_cast hratio1)⟩
    constructor
    · intro hsq
      exfalso
      have hlt : (0 : ℝ) < Real.sqrt
          (((crNumerator cats meas / crDenominator cats meas : ℚ) : ℝ)) :=
        Real.sqrt_pos.mpr (by exact_mod_cast hratio0)
      rw [hsq] at hlt
      exact lt_irrefl 0 hlt
    · intro hc
      exact absurd hc h0

theorem sum_of_const (l : List ℚ) (m : ℚ) (h : ∀ x ∈ l, x = m) :
    l.sum = (l.length : ℚ) * m := by
  induction l with
  | nil => simp
  | cons a t ih =>
    simp only [List.sum_cons, List.length_cons]
    rw [h a (List.mem_cons_self _ _), ih (fun x hx => h x (List.mem_cons_of_mem _ hx))]
    push_cast
    ring

theorem listMean_of_const (l : List ℚ) (hl : l ≠ []) (m : ℚ) (h : ∀ x ∈ l, x = m) :
    listMean l = m := by
  have hn : (l.length : ℚ) ≠ 0 := by
    exact_mod_cast (List.length_pos.mpr hl).ne'
  unfold listMean
  rw [sum_of_const l m h, mul_comm, mul_div_assoc, div_self hn, mul_one]

theorem groupOf_subset (cats : List String) (meas : List ℚ) (c : String) :
    ∀ x ∈ groupOf cats meas c, x ∈ meas := by
  intro x hx
  unfold groupOf at hx
  obtain ⟨p, hp, hpx⟩ := List.mem_map.mp hx
  have hz := (List.mem_filter.mp hp).1
  rcases p with ⟨u, v⟩
  cases hpx
  exact (List.of_mem_zip hz).2

theorem grandMean_of_const_measurements (cats : List String) (meas : List ℚ)
    (hgrp : ∀ c ∈ uniqueLevels cats, groupOf cats meas c ≠ [])
    (h : ∀ x ∈ meas, x = grandMean cats meas) :
    ∀ c ∈ uniqueLevels cats, listMean (groupOf cats meas c) = grandMean cats meas :=
  fun c hc =>
    listMean_of_const _ (hgrp c hc) _ (fun x hx => h x (groupOf_subset cats meas c x hx))

theorem correlation_ratio_in_unit_interval_witness :
    (["a", "a", "b"] : List String) ≠ [] ∧ ([1, 2, 4] : List ℚ) ≠ [] ∧
    (["a", "a", "b"] : List String).length = ([1, 2, 4] : List ℚ).length ∧
    (∀ c ∈ uniqueLevels ["a", "a", "b"], groupOf ["a", "a", "b"] [1, 2, 4] c ≠ []) ∧
    ((∀ x ∈ ([1, 2, 4] : List ℚ), x = grandMean ["a", "a", "b"] [1, 2, 4]) →
      ∀ c ∈ uniqueLevels ["a", "a", "b"],
        listMean (groupOf ["a", "a", "b"] [1, 2, 4] c) = grandMean ["a", "a", "b"] [1, 2, 4]) ∧
    (crNumerator ["a", "a", "b"] [1, 2, 4] ≤ crDenominator ["a", "a", "b"] [1, 2, 4] ∧
      (correlation_ratio ["a", "a", "b"] [1, 2, 4] = 0 ↔
        crNumerator ["a", "a", "b"] [1, 2, 4] = 0) ∧
      0 ≤ correlation_ratio ["a", "a", "b"] [1, 2, 4] ∧
      correlation_ratio ["a", "a", "b"] [1, 2, 4] ≤ 1) :=
  ⟨by decide, by decide, by decide, by decide,
    grandMean_of_const_measurements ["a", "a", "b"] [1, 2, 4] (by decide),
    correlation_ratio_in_unit_interval ["a", "a", "b"] [1, 2, 4]
      (by decide) (by decide) (by decide) (by decide)
      (grandMean_of_const_measurements ["a", "a", "b"] [1, 2, 4] (by decide))⟩

/-- Observed count of the level pair (a, b) in pd.crosstab(x, y): the (a, b)
cell of the contingency table built from the aligned observations. -/
def obsCount (x y : List String) (a b : String) : ℕ :=
  (x.zip y).countP (fun p => p.1 == a && p.2 == b)

/-- Row levels of pd.crosstab(x, y): the distinct values of x among the
aligned observations (pandas sorts them; the ordering is immaterial to every
count, margin and sum below). -/
def xLevels (x y : List String) : List String :=
  uniqueLevels ((x.zip y).map Prod.fst)

/-- Column levels of pd.crosstab(x, y). -/
def yLevels (x y : List String) : List String :=
  uniqueLevels ((x.zip y).map Prod.snd)

/-- Row margin of the contingency table (as an exact rational). -/
def rowTotal (x y : List String) (a : String) : ℚ :=
  ((yLevels x y).map (fun b => (obsCount x y a b : ℚ))).sum

/-- Column margin of the contingency table. -/
def colTotal (x y : List String) (b : String) : ℚ :=
  ((xLevels x y).map (fun a => (obsCount x y a b : ℚ))).sum

/-- n = confusion_matrix.sum().sum() (line 467 of stroke_eda.py): the sum of
all cells of the contingency table. -/
def ctTotal (x y : List String) : ℚ :=
  ((xLevels x y).map (fun a => rowTotal x y a)).sum

/-- Expected frequency of a cell under independence, as computed inside
scipy.stats.chi2_contingency: row margin times column margin over n. -/
def expectedFreq (x y : List String) (a b : String) : ℚ :=
  rowTotal x y a * colTotal x y b / ctTotal x y

/-- One cell's contribution to the chi-square statistic of
scipy.stats.chi2_contingency.  With correction=True (the default) and one
degree of freedom (a 2 by 2 table), Yates' continuity correction moves each
observed count 1/2 toward its expected value before squaring. -/
def chi2Cell (corr : Bool) (o e : ℚ) : ℚ :=
  if corr then (if o = e then 0 else (|o - e| - 1/2) ^ 2 / e)
  else (o - e) ^ 2 / e

/-- chi2 = ss.chi2_contingency(confusion_matrix)[0] (line 466 of
stroke_eda.py): the chi-square statistic of the contingency table of (x, y),
with Yates' correction exactly when the table is 2 by 2. -/
def chi2Stat (x y : List String) : ℚ :=
  ((xLevels x y).map (fun a => ((yLevels x y).map (fun b =>
    chi2Cell (((xLevels x y).length == 2) && ((yLevels x y).length == 2))
      ((obsCount x y a b : ℚ)) (expectedFreq x y a b))).sum)).sum

/-- cramers_v (lines 464–473 of stroke_eda.py) under the square root:
phi2corr / min(kcorr − 1, rcorr − 1), where phi2 = chi2/n,
phi2corr = max(0, phi2 − (k−1)(r−1)/(n−1)), rcorr = r − (r−1)²/(n−1),
kcorr = k − (k−1)²/(n−1), r and k the numbers of distinct levels of x and y.
Exact rational arithmetic; the ℚ convention that division by zero is 0 only
matters outside the claim's preconditions and applies identically to both
orders of the arguments. -/
def cramersRadicand (x y : List String) : ℚ :=
  max 0 (chi2Stat x y / ctTotal x y -
      ((((yLevels x y).length : ℚ) - 1) * (((xLevels x y).length : ℚ) - 1)) /
        (ctTotal x y - 1)) /
    min ((((yLevels x y).length : ℚ) - (((yLevels x y).length : ℚ) - 1) ^ 2 /
          (ctTotal x y - 1)) - 1)
        ((((xLevels x y).length : ℚ) - (((xLevels x y).length : ℚ) - 1) ^ 2 /
          (ctTotal x y - 1)) - 1)

/-- cramers_v returns np.sqrt of the corrected phi-square ratio (line 473). -/
noncomputable def cramers_v (x y : List String) : ℝ :=
  Real.sqrt ((cramersRadicand x y : ℝ))

theorem countP_pointwise {α : Type} (l : List α) (p q : α → Bool)
    (h : ∀ a ∈ l, p a = q a) : l.countP p = l.countP q := by
  induction l with
  | nil => rfl
  | cons a t ih =>
    rw [List.countP_cons, List.countP_cons, h a (List.mem_cons_self _ _),
      ih (fun v hv => h v (List.mem_cons_of_mem _ hv))]

theorem zip_map_swap {γ : Type} (x y : List String) (f : String × String → γ) :
    (y.zip x).map f = (x.zip y).map (fun p => f (p.2, p.1)) := by
  rw [← List.zip_swap x y, List.map_map]
  rfl

theorem xLevels_swap (x y : List String) : xLevels y x = yLevels x y := by
  unfold xLevels yLevels
  rw [zip_map_swap x y Prod.fst]

theorem yLevels_swap (x y : List String) : yLevels y x = xLevels x y := by
  unfold xLevels yLevels
  rw [zip_map_swap x y Prod.snd]

theorem obsCount_swap (x y : List String) (a b : String) :
    obsCount y x a b = obsCount x y b a := by
  unfold obsCount
  rw [← List.zip_swap x y, List.countP_map]
  exact countP_pointwise _ _ _ (fun p _ => Bool.and_comm (p.2 == a) (p.1 == b))

theorem sum_sum_comm {α β : Type} (L1 : List α) (L2 : List β) (f : α → β → ℚ) :
    (L1.map (fun a => (L2.map (fun b => f a b)).sum)).sum
      = (L2.map (fun b => (L1.map (fun a => f a b)).sum)).sum := by
  induction L1 with
  | nil =>
    simp only [List.map_nil, List.sum_nil]
    induction L2 with
    | nil => simp
    | cons b t ihb => simp_all
  | cons a t ih =>
    simp only [List.map_cons, List.sum_cons, ih, sum_map_add]

theorem rowTotal_swap (x y : List String) (a : String) :
    rowTotal y x a = colTotal x y a := by
  unfold rowTotal colTotal
  rw [yLevels_swap]
  apply congrArg
  apply List.map_congr_left
  intro b _
  rw [obsCount_swap]

theorem colTotal_swap (x y : List String) (b : String) :
    colTotal y x b = rowTotal x y b := by
  unfold rowTotal colTotal
  rw [xLevels_swap]
  apply congrArg
  apply List.map_congr_left
  intro a _
  rw [obsCount_swap]

theorem ctTotal_swap (x y : List String) : ctTotal y x = ctTotal x y := by
  unfold ctTotal
  rw [xLevels_swap]
  have h1 : ((yLevels x y).map (fun a => rowTotal y x a)).sum
      = ((yLevels x y).map (fun a => colTotal x y a)).sum := by
    apply congrArg
    apply List.map_congr_left
    intro a _
    rw [rowTotal_swap]
  rw [h1]
  unfold rowTotal colTotal
  exact sum_sum_comm (yLevels x y) (xLevels x y) (fun a b => (obsCount x y b a : ℚ))

theorem expectedFreq_swap (x y : List String) (a b : String) :
    expectedFreq y x a b = expectedFreq x y b a := by
  unfold expectedFreq
  rw [rowTotal_swap x y a, colTotal_swap x y b, ctTotal_swap x y]
  ring

theorem chi2Stat_swap (x y : List String) : chi2Stat y x = chi2Stat x y := by
  unfold chi2Stat
  simp only [xLevels_swap x y, yLevels_swap x y, obsCount_swap x y, expectedFreq_swap x y,
    Bool.and_comm ((yLevels x y).length == 2) ((xLevels x y).length == 2)]
  exact sum_sum_comm (yLevels x y) (xLevels x y) (fun a b =>
    chi2Cell (((xLevels x y).length == 2) && ((yLevels x y).length == 2))
      ((obsCount x y b a : ℚ)) (expectedFreq x y b a))

theorem cramersRadicand_swap (x y : List String) :
    cramersRadicand y x = cramersRadicand x y := by
  unfold cramersRadicand
  rw [xLevels_swap x y, yLevels_swap x y, ctTotal_swap x y, chi2Stat_swap x y, min_comm]
  ring_nf

/-- Claim C10: cramers_v is symmetric in its two arguments — for equal-length
categorical series x and y, each with at least two distinct levels and with at
least two joint observations, cramers_v(x, y) = cramers_v(y, x): transposing
the contingency table leaves the chi-square statistic, n, and the set
{rcorr − 1, kcorr − 1} (hence their minimum) unchanged. -/
theorem cramers_v_symmetric (x y : List String) (hlen : x.length = y.length)
    (hx : 2 ≤ (uniqueLevels x).length) (hy : 2 ≤ (uniqueLevels y).length)
    (hn : 2 ≤ (x.zip y).length) :
    cramers_v x y = cramers_v y x := by
  unfold cramers_v
  rw [cramersRadicand_swap x y]

theorem cramers_v_symmetric_witness :
    (["a", "b", "a", "b"] : List String).length = (["u", "u", "v", "v"] : List String).length ∧
    2 ≤ (uniqueLevels ["a", "b", "a", "b"]).length ∧
    2 ≤ (uniqueLevels ["u", "u", "v", "v"]).length ∧
    2 ≤ (List.zip ["a", "b", "a", "b"] ["u", "u", "v", "v"]).length ∧
    cramers_v ["a", "b", "a", "b"] ["u", "u", "v", "v"]
      = cramers_v ["u", "u", "v", "v"] ["a", "b", "a", "b"] :=
  ⟨by decide, by decide, by decide, by decide,
    cramers_v_symmetric ["a", "b", "a", "b"] ["u", "u", "v", "v"]
      (by decide) (by decide) (by decide) (by decide)⟩

end StrokeEDA
